import Mathlib

/-!
A formalisation of the statistical core of `scripts/bench_plot.py`:
the linear-interpolation quantile estimator, sample grouping, the paired
speedup index and ratio computation, and the memory-peak series merge.

Python floats are modelled by rational numbers, Python dicts by
insertion-ordered association lists, and Python's `None` by `Option`.
-/

/-- Association-list lookup, modelling Python `d[k]` / `d.get(k)`:
the value stored under the first matching key (dict keys are unique,
so the first match is the unique match). -/
def alookup {α β : Type} [DecidableEq α] : List (α × β) → α → Option β
  | [], _ => none
  | (k, v) :: rest, a => if k = a then some v else alookup rest a

/-- Python's `int(x)` on a float: truncation toward zero. -/
def pyInt (x : ℚ) : ℤ := if 0 ≤ x then ⌊x⌋ else ⌈x⌉

/-- `pos = (len(sorted_vals) - 1) * q` in `quantile`. -/
def qpos (v : List ℚ) (q : ℚ) : ℚ := ((v.length - 1 : ℕ) : ℚ) * q

/-- `lo = int(pos)` in `quantile`. -/
def qlo (v : List ℚ) (q : ℚ) : ℤ := pyInt (qpos v q)

/-- `hi = min(lo + 1, len(sorted_vals) - 1)` in `quantile`. -/
def qhi (v : List ℚ) (q : ℚ) : ℤ := min (qlo v q + 1) ((v.length : ℤ) - 1)

/-- `frac = pos - lo` in `quantile`. -/
def qfrac (v : List ℚ) (q : ℚ) : ℚ := qpos v q - (qlo v q : ℚ)

/-- `quantile(sorted_vals, q)` from `bench_plot.py`: linear-interpolation
(type-7) quantile on an already-sorted list.  Returns `none` (Python `None`)
on the empty list, the sole element on singletons, and otherwise
`sorted_vals[lo] * (1 - frac) + sorted_vals[hi] * frac`. -/
def quantile (sorted_vals : List ℚ) (q : ℚ) : Option ℚ :=
  if sorted_vals = [] then none
  else if sorted_vals.length = 1 then some (sorted_vals.getD 0 0)
  else
    some (sorted_vals.getD (qlo sorted_vals q).toNat 0 * (1 - qfrac sorted_vals q)
        + sorted_vals.getD (qhi sorted_vals q).toNat 0 * qfrac sorted_vals q)

lemma getLast?_eq_some_getD (v : List ℚ) (h : v ≠ []) :
    v.getLast? = some (v.getD (v.length - 1) 0) := by
  induction v with
  | nil => cases h rfl
  | cons a t ih =>
    cases t with
    | nil => simp
    | cons b t' =>
      rw [List.getLast?_cons_cons, ih (by simp)]
      simp

lemma pyInt_natCast (n : ℕ) : pyInt ((n : ℕ) : ℚ) = (n : ℤ) := by
  simp [pyInt]

/-- C7: `quantile` on the empty sequence returns `none` for every `q`
(no error), and on a one-element sequence `[x]` returns `x` for every `q`
(in particular for every `q` in `[0,1]`). -/
theorem quantile_empty_and_singleton :
    (∀ q : ℚ, quantile [] q = none) ∧ (∀ x q : ℚ, quantile [x] q = some x) := by
  constructor
  · intro q; simp [quantile]
  · intro x q; simp [quantile]

/-- C5: for every sequence, `quantile` at `q = 0` is the first element and at
`q = 1` the last element (as optional values; on the empty sequence all three
are absent, so in particular the claim holds for every non-empty ascending
sequence). -/
theorem quantile_endpoints (v : List ℚ) :
    quantile v 0 = v.head? ∧ quantile v 1 = v.getLast? := by
  constructor
  · match v with
    | [] => simp [quantile]
    | [x] => simp [quantile]
    | a :: b :: t =>
      have h0 : qfrac (a :: b :: t) 0 = 0 := by
        simp [qfrac, qpos, qlo, pyInt]
      have hlo : qlo (a :: b :: t) 0 = 0 := by
        simp [qlo, qpos, pyInt]
      simp [quantile, h0, hlo]
  · match v with
    | [] => simp [quantile]
    | [x] => simp [quantile]
    | a :: b :: t =>
      have hq : qpos (a :: b :: t) 1 = ((t.length + 1 : ℕ) : ℚ) := by
        simp [qpos]
      have hlo : qlo (a :: b :: t) 1 = ((t.length + 1 : ℕ) : ℤ) := by
        rw [qlo, hq, pyInt_natCast]
      have hhi : qhi (a :: b :: t) 1 = ((t.length + 1 : ℕ) : ℤ) := by
        rw [qhi, hlo]
        simp
      have hfrac : qfrac (a :: b :: t) 1 = 0 := by
        rw [qfrac, hq, hlo]
        simp
      rw [getLast?_eq_some_getD _ (by simp)]
      simp [quantile, hlo, hhi, hfrac]

/-- Spec-side quantile formula for the interpolation case, transcribed from
the specification's own words: `pos = (length-1)*q`, `lo = floor(pos)`,
`hi = min(lo+1, length-1)`, `frac = pos - lo`,
result `values[lo]*(1-frac) + values[hi]*frac`. -/
def quantileSpecFormula (values : List ℚ) (q : ℚ) : ℚ :=
  let pos : ℚ := ((values.length : ℚ) - 1) * q
  let lo : ℤ := ⌊pos⌋
  let hi : ℤ := min (lo + 1) ((values.length : ℤ) - 1)
  let frac : ℚ := pos - (lo : ℚ)
  values.getD lo.toNat 0 * (1 - frac) + values.getD hi.toNat 0 * frac

lemma length_sub_one_cast (v : List ℚ) (h1 : 1 ≤ v.length) :
    ((v.length - 1 : ℕ) : ℚ) = (v.length : ℚ) - 1 := by
  rw [Nat.cast_sub h1]; norm_num

lemma qpos_nonneg (v : List ℚ) (q : ℚ) (hq0 : 0 ≤ q) : 0 ≤ qpos v q :=
  mul_nonneg (by positivity) hq0

lemma qlo_eq_floor (v : List ℚ) (q : ℚ) (hq0 : 0 ≤ q) :
    qlo v q = ⌊qpos v q⌋ := by
  rw [qlo, pyInt, if_pos (qpos_nonneg v q hq0)]

/-- C1: on an ascending sequence of length at least two and `q` in `[0,1]`,
`quantile` returns exactly the spec formula
`values[lo]*(1-frac) + values[hi]*frac` with `pos = (length-1)*q`,
`lo = floor(pos)`, `hi = min(lo+1, length-1)`, `frac = pos - lo`; in
particular `quantile [1,2,3,4] 0.5 = 2.5` and `quantile [1,2,3,4] 0.25
= 1.75`. -/
theorem quantile_interpolation_formula :
    (∀ (v : List ℚ) (q : ℚ), List.Sorted (· ≤ ·) v → 2 ≤ v.length →
      0 ≤ q → q ≤ 1 → quantile v q = some (quantileSpecFormula v q))
    ∧ quantile [1, 2, 3, 4] (1/2) = some (5/2)
    ∧ quantile [1, 2, 3, 4] (1/4) = some (7/4) := by
  refine ⟨?_, ?_, ?_⟩
  case refine_2 =>
    have l1 : qlo [1, 2, 3, 4] (1/2 : ℚ) = 1 := by norm_num [qlo, qpos, pyInt]
    have h1 : qhi [1, 2, 3, 4] (1/2 : ℚ) = 2 := by rw [qhi, l1]; norm_num
    have f1 : qfrac [1, 2, 3, 4] (1/2 : ℚ) = 1/2 := by rw [qfrac, l1, qpos]; norm_num
    rw [quantile, if_neg (by simp), if_neg (by simp), l1, h1, f1]
    norm_num [List.getD, show Int.toNat 2 = 2 from rfl]
  case refine_3 =>
    have l1 : qlo [1, 2, 3, 4] (1/4 : ℚ) = 0 := by norm_num [qlo, qpos, pyInt]
    have h1 : qhi [1, 2, 3, 4] (1/4 : ℚ) = 1 := by rw [qhi, l1]; norm_num
    have f1 : qfrac [1, 2, 3, 4] (1/4 : ℚ) = 3/4 := by rw [qfrac, l1, qpos]; norm_num
    rw [quantile, if_neg (by simp), if_neg (by simp), l1, h1, f1]
    norm_num [List.getD, show Int.toNat 1 = 1 from rfl]
  intro v q _hsort h2 hq0 hq1
  have hne : v ≠ [] := by rintro rfl; simp at h2
  have hl1 : v.length ≠ 1 := by omega
  have hcast : ((v.length - 1 : ℕ) : ℚ) = (v.length : ℚ) - 1 :=
    length_sub_one_cast v (by omega)
  have e1 : qpos v q = ((v.length : ℚ) - 1) * q := by rw [qpos, hcast]
  rw [quantile, if_neg hne, if_neg hl1]
  simp only [quantileSpecFormula]
  rw [qfrac, qhi, qlo_eq_floor v q hq0, e1]

/-- Closed witness for the interpolation-formula theorem at `v = [1,2,3,4]`,
`q = 1/2`. -/
theorem quantile_interpolation_formula_witness :
    quantile [1, 2, 3, 4] (1/2) = some (quantileSpecFormula [1, 2, 3, 4] (1/2)) :=
  quantile_interpolation_formula.1 [1, 2, 3, 4] (1/2) (by decide) (by decide)
    (by norm_num) (by norm_num)

lemma qpos_le (v : List ℚ) (q : ℚ) (hq1 : q ≤ 1) :
    qpos v q ≤ ((v.length - 1 : ℕ) : ℚ) := by
  rw [qpos]
  exact mul_le_of_le_one_right (by positivity) hq1

lemma qlo_nonneg (v : List ℚ) (q : ℚ) (hq0 : 0 ≤ q) : 0 ≤ qlo v q := by
  rw [qlo_eq_floor v q hq0]
  exact Int.floor_nonneg.mpr (qpos_nonneg v q hq0)

lemma qlo_le (v : List ℚ) (q : ℚ) (h1 : 1 ≤ v.length) (hq0 : 0 ≤ q) (hq1 : q ≤ 1) :
    qlo v q ≤ (v.length : ℤ) - 1 := by
  rw [qlo_eq_floor v q hq0]
  have h := Int.floor_mono (qpos_le v q hq1)
  rw [Int.floor_natCast] at h
  omega

lemma qhi_le (v : List ℚ) (q : ℚ) : qhi v q ≤ (v.length : ℤ) - 1 :=
  min_le_right _ _

lemma qlo_le_qhi (v : List ℚ) (q : ℚ) (h1 : 1 ≤ v.length) (hq0 : 0 ≤ q) (hq1 : q ≤ 1) :
    qlo v q ≤ qhi v q :=
  le_min (by omega) (qlo_le v q h1 hq0 hq1)

lemma qfrac_nonneg (v : List ℚ) (q : ℚ) (hq0 : 0 ≤ q) : 0 ≤ qfrac v q := by
  rw [qfrac, qlo_eq_floor v q hq0]
  linarith [Int.floor_le (qpos v q)]

lemma qfrac_lt_one (v : List ℚ) (q : ℚ) (hq0 : 0 ≤ q) : qfrac v q < 1 := by
  rw [qfrac, qlo_eq_floor v q hq0]
  linarith [Int.lt_floor_add_one (qpos v q)]

lemma quantile_eq_interp (v : List ℚ) (q : ℚ) (h2 : 2 ≤ v.length) :
    quantile v q = some (v.getD (qlo v q).toNat 0 * (1 - qfrac v q)
      + v.getD (qhi v q).toNat 0 * qfrac v q) := by
  rw [quantile, if_neg (by rintro rfl; simp at h2), if_neg (by omega)]

lemma sorted_getD_mono (v : List ℚ) (hv : List.Sorted (· ≤ ·) v)
    (i j : ℕ) (hij : i ≤ j) (hj : j < v.length) : v.getD i 0 ≤ v.getD j 0 := by
  have hi : i < v.length := lt_of_le_of_lt hij hj
  rw [List.getD_eq_getElem v 0 hi, List.getD_eq_getElem v 0 hj]
  have h := hv.rel_get_of_le (a := ⟨i, hi⟩) (b := ⟨j, hj⟩) (Fin.mk_le_mk.mpr hij)
  simpa using h

lemma interp_le_right (A B f : ℚ) (hAB : A ≤ B) (_h0 : 0 ≤ f) (h1 : f ≤ 1) :
    A * (1 - f) + B * f ≤ B := by nlinarith

lemma interp_ge_left (A B f : ℚ) (hAB : A ≤ B) (h0 : 0 ≤ f) (_h1 : f ≤ 1) :
    A ≤ A * (1 - f) + B * f := by nlinarith

/-- C10: on a non-empty ascending sequence `v` and `q` in `[0,1]`, the result
of `quantile v q` exists and lies between the first and the last element of
`v`; consequently, applying `quantile` to a sorted bag of observed values (as
`summarize` and `paired_speedup` do) never leaves the range of those values:
the result is bounded below and above by members of the bag. -/
theorem quantile_within_range :
    (∀ (v : List ℚ) (q : ℚ), List.Sorted (· ≤ ·) v → v ≠ [] → 0 ≤ q → q ≤ 1 →
      ∃ r, quantile v q = some r ∧ v.getD 0 0 ≤ r ∧ r ≤ v.getD (v.length - 1) 0)
    ∧ (∀ (vals : List ℚ) (q : ℚ), vals ≠ [] → 0 ≤ q → q ≤ 1 →
      ∃ r, quantile (List.insertionSort (· ≤ ·) vals) q = some r ∧
        (∃ a ∈ vals, a ≤ r) ∧ (∃ b ∈ vals, r ≤ b)) := by
  have main : ∀ (v : List ℚ) (q : ℚ), List.Sorted (· ≤ ·) v → v ≠ [] →
      0 ≤ q → q ≤ 1 →
      ∃ r, quantile v q = some r ∧ v.getD 0 0 ≤ r ∧ r ≤ v.getD (v.length - 1) 0 := by
    intro v q hsort hne hq0 hq1
    have hlen : 1 ≤ v.length := by
      cases v with
      | nil => cases hne rfl
      | cons a t => simp
    by_cases h1 : v.length = 1
    · refine ⟨v.getD 0 0, ?_, le_refl _, ?_⟩
      · rw [quantile, if_neg hne, if_pos h1]
      · rw [h1]
    · have h2 : 2 ≤ v.length := by omega
      have hlo0 : 0 ≤ qlo v q := qlo_nonneg v q hq0
      have hlole : qlo v q ≤ (v.length : ℤ) - 1 := qlo_le v q hlen hq0 hq1
      have hhile : qhi v q ≤ (v.length : ℤ) - 1 := qhi_le v q
      have hlohi : qlo v q ≤ qhi v q := qlo_le_qhi v q hlen hq0 hq1
      have hf0 : 0 ≤ qfrac v q := qfrac_nonneg v q hq0
      have hf1 : qfrac v q ≤ 1 := le_of_lt (qfrac_lt_one v q hq0)
      have hhiN : (qhi v q).toNat < v.length := by omega
      have hloN : (qlo v q).toNat ≤ (qhi v q).toNat := by omega
      have hAB : v.getD (qlo v q).toNat 0 ≤ v.getD (qhi v q).toNat 0 :=
        sorted_getD_mono v hsort _ _ hloN hhiN
      refine ⟨_, quantile_eq_interp v q h2, ?_, ?_⟩
      · calc v.getD 0 0 ≤ v.getD (qlo v q).toNat 0 :=
              sorted_getD_mono v hsort 0 _ (Nat.zero_le _) (by omega)
          _ ≤ _ := interp_ge_left _ _ _ hAB hf0 hf1
      · calc v.getD (qlo v q).toNat 0 * (1 - qfrac v q)
              + v.getD (qhi v q).toNat 0 * qfrac v q
              ≤ v.getD (qhi v q).toNat 0 := interp_le_right _ _ _ hAB hf0 hf1
          _ ≤ v.getD (v.length - 1) 0 :=
              sorted_getD_mono v hsort _ _ (by omega) (by omega)
  refine ⟨main, ?_⟩
  intro vals q hne hq0 hq1
  set w := List.insertionSort (· ≤ ·) vals with hw
  have hsort : List.Sorted (· ≤ ·) w := List.sorted_insertionSort _ _
  have hperm : List.Perm w vals := List.perm_insertionSort _ _
  have hwne : w ≠ [] := by
    intro h
    have := hperm.length_eq
    rw [h] at this
    simp at this
    exact hne (List.length_eq_zero.mp this.symm)
  obtain ⟨r, hr, hlo, hhi⟩ := main w q hsort hwne hq0 hq1
  have hw0 : 0 < w.length := List.length_pos.mpr hwne
  refine ⟨r, hr, ⟨w.getD 0 0, ?_, hlo⟩, ⟨w.getD (w.length - 1) 0, ?_, hhi⟩⟩
  · rw [List.getD_eq_getElem w 0 hw0]
    exact hperm.mem_iff.mp (List.getElem_mem _)
  · rw [List.getD_eq_getElem w 0 (by omega)]
    exact hperm.mem_iff.mp (List.getElem_mem _)

/-- Closed witness for `quantile_within_range` at `v = vals = [1,2,3,4]`,
`q = 1/2`. -/
theorem quantile_within_range_witness :
    (∃ r, quantile [(1 : ℚ), 2, 3, 4] (1/2) = some r ∧
      [(1 : ℚ), 2, 3, 4].getD 0 0 ≤ r ∧
      r ≤ [(1 : ℚ), 2, 3, 4].getD ([(1 : ℚ), 2, 3, 4].length - 1) 0) ∧
    (∃ r, quantile (List.insertionSort (· ≤ ·) [(3 : ℚ), 1, 2]) (1/2) = some r ∧
      (∃ a ∈ [(3 : ℚ), 1, 2], a ≤ r) ∧ (∃ b ∈ [(3 : ℚ), 1, 2], r ≤ b)) :=
  ⟨quantile_within_range.1 [1, 2, 3, 4] (1/2) (by decide) (by decide)
      (by norm_num) (by norm_num),
   quantile_within_range.2 [3, 1, 2] (1/2) (by decide) (by norm_num) (by norm_num)⟩

/-- C6: for a fixed non-empty ascending sequence `v` and `q1 < q2` in `[0,1]`,
the quantile estimator is monotone: `quantile v q1 ≤ quantile v q2`
(both values exist). -/
theorem quantile_monotone :
    ∀ (v : List ℚ) (q1 q2 : ℚ), List.Sorted (· ≤ ·) v → v ≠ [] →
      0 ≤ q1 → q1 < q2 → q2 ≤ 1 →
      ∃ a b, quantile v q1 = some a ∧ quantile v q2 = some b ∧ a ≤ b := by
  intro v q1 q2 hsort hne hq10 hlt hq21
  have hq11 : q1 ≤ 1 := le_trans hlt.le hq21
  have hq20 : 0 ≤ q2 := le_trans hq10 hlt.le
  have hlen : 1 ≤ v.length := by
    cases v with
    | nil => cases hne rfl
    | cons a t => simp
  by_cases h1 : v.length = 1
  · refine ⟨v.getD 0 0, v.getD 0 0, ?_, ?_, le_refl _⟩ <;>
      rw [quantile, if_neg hne, if_pos h1]
  · have h2 : 2 ≤ v.length := by omega
    have hp12 : qpos v q1 ≤ qpos v q2 := by
      rw [qpos, qpos]
      exact mul_le_mul_of_nonneg_left hlt.le (by positivity)
    have hk12 : qlo v q1 ≤ qlo v q2 := by
      rw [qlo_eq_floor _ _ hq10, qlo_eq_floor _ _ hq20]
      exact Int.floor_mono hp12
    have hlo1 : 0 ≤ qlo v q1 := qlo_nonneg v q1 hq10
    have hlo2 : 0 ≤ qlo v q2 := qlo_nonneg v q2 hq20
    have hlole2 : qlo v q2 ≤ (v.length : ℤ) - 1 := qlo_le v q2 hlen hq20 hq21
    have hhile1 : qhi v q1 ≤ (v.length : ℤ) - 1 := qhi_le v q1
    have hhile2 : qhi v q2 ≤ (v.length : ℤ) - 1 := qhi_le v q2
    have hlohi1 : qlo v q1 ≤ qhi v q1 := qlo_le_qhi v q1 hlen hq10 hq11
    have hlohi2 : qlo v q2 ≤ qhi v q2 := qlo_le_qhi v q2 hlen hq20 hq21
    have hf10 : 0 ≤ qfrac v q1 := qfrac_nonneg v q1 hq10
    have hf1le : qfrac v q1 ≤ 1 := le_of_lt (qfrac_lt_one v q1 hq10)
    have hf20 : 0 ≤ qfrac v q2 := qfrac_nonneg v q2 hq20
    have hf2le : qfrac v q2 ≤ 1 := le_of_lt (qfrac_lt_one v q2 hq20)
    have hAB1 : v.getD (qlo v q1).toNat 0 ≤ v.getD (qhi v q1).toNat 0 :=
      sorted_getD_mono v hsort _ _ (by omega) (by omega)
    have hAB2 : v.getD (qlo v q2).toNat 0 ≤ v.getD (qhi v q2).toNat 0 :=
      sorted_getD_mono v hsort _ _ (by omega) (by omega)
    refine ⟨_, _, quantile_eq_interp v q1 h2, quantile_eq_interp v q2 h2, ?_⟩
    rcases eq_or_lt_of_le hk12 with heq | hltk
    · have hhi_eq : qhi v q1 = qhi v q2 := by rw [qhi, qhi, heq]
      have hfle : qfrac v q1 ≤ qfrac v q2 := by
        rw [qfrac, qfrac, heq]
        linarith
      rw [heq, hhi_eq]
      nlinarith [hAB2, hfle, hf10]
    · have hmin1 : qhi v q1 ≤ qlo v q1 + 1 := min_le_left _ _
      have hstep : v.getD (qhi v q1).toNat 0 ≤ v.getD (qlo v q2).toNat 0 :=
        sorted_getD_mono v hsort _ _ (by omega) (by omega)
      calc v.getD (qlo v q1).toNat 0 * (1 - qfrac v q1)
            + v.getD (qhi v q1).toNat 0 * qfrac v q1
          ≤ v.getD (qhi v q1).toNat 0 := interp_le_right _ _ _ hAB1 hf10 hf1le
        _ ≤ v.getD (qlo v q2).toNat 0 := hstep
        _ ≤ v.getD (qlo v q2).toNat 0 * (1 - qfrac v q2)
            + v.getD (qhi v q2).toNat 0 * qfrac v q2 :=
            interp_ge_left _ _ _ hAB2 hf20 hf2le

/-- Closed witness for `quantile_monotone` at `v = [1,2,3,4]`, `q1 = 1/4`,
`q2 = 1/2`. -/
theorem quantile_monotone_witness :
    ∃ a b, quantile [(1 : ℚ), 2, 3, 4] (1/4) = some a ∧
      quantile [(1 : ℚ), 2, 3, 4] (1/2) = some b ∧ a ≤ b :=
  quantile_monotone [1, 2, 3, 4] (1/4) (1/2) (by decide) (by decide)
    (by norm_num) (by norm_num) (by norm_num)

/-- One parsed CSV row of `bench.csv`, with the fields `bench_plot.py`
reads: `op`, `variant`, `n` (parsed with `int`), `sample` (parsed with
`int`), and the numeric metrics (parsed with `float`). -/
structure Row where
  op : String
  variant : String
  n : ℤ
  sample : ℤ
  ns_per_op : ℚ
  mem_peak_bytes : ℚ
  expected_node_bytes : ℚ
deriving DecidableEq

/-- `d.setdefault(n, []).append(v)` on an insertion-ordered dict of lists. -/
def updAdd (d : List (ℤ × List ℚ)) (n : ℤ) (v : ℚ) : List (ℤ × List ℚ) :=
  match d with
  | [] => [(n, [v])]
  | (m, vs) :: rest =>
      if m = n then (m, vs ++ [v]) :: rest else (m, vs) :: updAdd rest n v

/-- `group_samples(rows, op, variant, key)` from `bench_plot.py`: rows whose
`op` and `variant` fields both match are grouped by `n`, accumulating the
`key` metric of each matching row, in input order. -/
def group_samples (rows : List Row) (op variant : String) (key : Row → ℚ) :
    List (ℤ × List ℚ) :=
  rows.foldl
    (fun d r => if r.op = op ∧ r.variant = variant then updAdd d r.n (key r) else d)
    []

/-- Total number of values across all groups of a grouping. -/
def groupTotal (d : List (ℤ × List ℚ)) : ℕ := (d.map (fun p => p.2.length)).sum

lemma groupTotal_updAdd (d : List (ℤ × List ℚ)) (n : ℤ) (v : ℚ) :
    groupTotal (updAdd d n v) = groupTotal d + 1 := by
  induction d with
  | nil => simp [updAdd, groupTotal]
  | cons p rest ih =>
    obtain ⟨m, vs⟩ := p
    by_cases h : m = n
    · simp [updAdd, h, groupTotal]
      omega
    · simp only [updAdd, if_neg h]
      simp [groupTotal] at ih ⊢
      omega

lemma groupTotal_foldl (rows : List Row) (op variant : String) (key : Row → ℚ) :
    ∀ d : List (ℤ × List ℚ),
      groupTotal (rows.foldl
        (fun d r => if r.op = op ∧ r.variant = variant then updAdd d r.n (key r) else d) d)
      = groupTotal d
        + (rows.filter (fun r => r.op = op ∧ r.variant = variant)).length := by
  induction rows with
  | nil => intro d; simp
  | cons r rest ih =>
    intro d
    rw [List.foldl_cons, List.filter_cons]
    by_cases h : r.op = op ∧ r.variant = variant
    · rw [if_pos h, if_pos (by simpa using h), ih, groupTotal_updAdd]
      simp
      omega
    · rw [if_neg h, if_neg (by simpa using h), ih]

lemma sum_map_add_nat {α : Type} (V : List α) (f g : α → ℕ) :
    (V.map (fun v => f v + g v)).sum = (V.map f).sum + (V.map g).sum := by
  induction V with
  | nil => simp
  | cons w W ih => simp [ih]; omega

lemma sum_map_indicator (V : List String) (s : String) (hnd : V.Nodup) (hs : s ∈ V) :
    (V.map (fun var => if s = var then (1 : ℕ) else 0)).sum = 1 := by
  induction V with
  | nil => cases hs
  | cons w W ih =>
    rcases List.mem_cons.mp hs with h | h
    · subst h
      have hW : s ∉ W := (List.nodup_cons.mp hnd).1
      have : (W.map (fun var => if s = var then (1 : ℕ) else 0)).sum = 0 := by
        rw [List.sum_eq_zero]
        intro x hx
        obtain ⟨var, hvar, rfl⟩ := List.mem_map.mp hx
        rw [if_neg]
        rintro rfl
        exact hW hvar
      simp [this]
    · have hW : s ≠ w := by
        rintro rfl
        exact (List.nodup_cons.mp hnd).1 h
      rw [List.map_cons, List.sum_cons, if_neg hW,
        ih (List.nodup_cons.mp hnd).2 h]

lemma sum_filter_lengths (op : String) (V : List String) (rows : List Row)
    (hnd : V.Nodup) (hcov : ∀ r ∈ rows, r.op = op → r.variant ∈ V) :
    (V.map (fun var =>
      (rows.filter (fun r => r.op = op ∧ r.variant = var)).length)).sum
    = (rows.filter (fun r => r.op = op)).length := by
  induction rows with
  | nil => simp
  | cons r rest ih =>
    have hcov' : ∀ x ∈ rest, x.op = op → x.variant ∈ V := fun x hx =>
      hcov x (List.mem_cons_of_mem _ hx)
    have hsplit : ∀ var : String,
        (List.filter (fun x => decide (x.op = op ∧ x.variant = var)) (r :: rest)).length
        = (if r.op = op ∧ r.variant = var then 1 else 0)
          + (rest.filter (fun x => x.op = op ∧ x.variant = var)).length := by
      intro var
      rw [List.filter_cons]
      by_cases h : r.op = op ∧ r.variant = var
      · rw [if_pos (by simpa using h), if_pos h]
        simp
        omega
      · rw [if_neg (by simpa using h), if_neg h]
        simp
    calc (V.map (fun var =>
            (List.filter (fun x => decide (x.op = op ∧ x.variant = var)) (r :: rest)).length)).sum
        = (V.map (fun var => (if r.op = op ∧ r.variant = var then 1 else 0)
            + (rest.filter (fun x => x.op = op ∧ x.variant = var)).length)).sum := by
          congr 1
          exact List.map_congr_left (fun var _ => hsplit var)
      _ = (V.map (fun var => if r.op = op ∧ r.variant = var then (1:ℕ) else 0)).sum
          + (V.map (fun var =>
              (rest.filter (fun x => x.op = op ∧ x.variant = var)).length)).sum :=
          sum_map_add_nat V _ _
      _ = (List.filter (fun x => decide (x.op = op)) (r :: rest)).length := by
          rw [ih hcov', List.filter_cons]
          by_cases hop : r.op = op
          · have hmem : r.variant ∈ V := hcov r (List.mem_cons_self _ _) hop
            have : (V.map (fun var => if r.op = op ∧ r.variant = var then (1:ℕ) else 0)).sum
                = (V.map (fun var => if r.variant = var then (1:ℕ) else 0)).sum := by
              congr 1
              refine List.map_congr_left (fun var _ => ?_)
              by_cases hv : r.variant = var
              · rw [if_pos ⟨hop, hv⟩, if_pos hv]
              · rw [if_neg (fun hc => hv hc.2), if_neg hv]
            rw [this, sum_map_indicator V r.variant hnd hmem, if_pos (by simpa using hop)]
            simp
            omega
          · have : (V.map (fun var => if r.op = op ∧ r.variant = var then (1:ℕ) else 0)).sum
                = 0 := by
              rw [List.sum_eq_zero]
              intro x hx
              obtain ⟨var, _, rfl⟩ := List.mem_map.mp hx
              rw [if_neg (fun hc => hop hc.1)]
            rw [this, if_neg (by simpa using hop)]
            omega

/-- C8: grouping is lossless.  For every row set, operation and variant, the
total count of values across the groups produced by `group_samples` equals
the number of input rows with that operation and variant; summing over the
distinct variants occurring in the input, the total across all groups for an
operation equals the number of input rows for that operation, so every row
is placed into exactly one group and none is dropped. -/
theorem grouping_lossless :
    (∀ (rows : List Row) (op variant : String) (key : Row → ℚ),
      groupTotal (group_samples rows op variant key)
        = (rows.filter (fun r => r.op = op ∧ r.variant = variant)).length)
    ∧ (∀ (rows : List Row) (op : String) (key : Row → ℚ),
      (((rows.map Row.variant).dedup).map
          (fun var => groupTotal (group_samples rows op var key))).sum
        = (rows.filter (fun r => r.op = op)).length) := by
  have part1 : ∀ (rows : List Row) (op variant : String) (key : Row → ℚ),
      groupTotal (group_samples rows op variant key)
        = (rows.filter (fun r => r.op = op ∧ r.variant = variant)).length := by
    intro rows op variant key
    rw [group_samples, groupTotal_foldl]
    simp [groupTotal]
  refine ⟨part1, ?_⟩
  intro rows op key
  have hrw : (((rows.map Row.variant).dedup).map
      (fun var => groupTotal (group_samples rows op var key))).sum
      = (((rows.map Row.variant).dedup).map
        (fun var => (rows.filter (fun r => r.op = op ∧ r.variant = var)).length)).sum := by
    congr 1
    exact List.map_congr_left (fun var _ => part1 rows op var key)
  rw [hrw]
  exact sum_filter_lengths op _ rows (List.nodup_dedup _)
    (fun r hr _ => List.mem_dedup.mpr (List.mem_map_of_mem Row.variant hr))

/-- `d[var] = v` on an insertion-ordered dict: overwrite in place if the key
exists, append otherwise. -/
def setVar (d : List (String × ℚ)) (k : String) (v : ℚ) : List (String × ℚ) :=
  match d with
  | [] => [(k, v)]
  | (k', v') :: rest =>
      if k' = k then (k', v) :: rest else (k', v') :: setVar rest k v

/-- `m.setdefault(s, {})[var] = v` on the sample level of the paired index. -/
def updSample (m : List (ℤ × List (String × ℚ))) (s : ℤ) (var : String) (v : ℚ) :
    List (ℤ × List (String × ℚ)) :=
  match m with
  | [] => [(s, setVar [] var v)]
  | (s', d) :: rest =>
      if s' = s then (s', setVar d var v) :: rest else (s', d) :: updSample rest s var v

/-- `by_n.setdefault(n, {}).setdefault(s, {})[var] = v` on the size level. -/
def updSize (b : List (ℤ × List (ℤ × List (String × ℚ)))) (n s : ℤ)
    (var : String) (v : ℚ) : List (ℤ × List (ℤ × List (String × ℚ))) :=
  match b with
  | [] => [(n, updSample [] s var v)]
  | (n', m) :: rest =>
      if n' = n then (n', updSample m s var v) :: rest else (n', m) :: updSize rest n s var v

/-- The `by_n` index built by the first loop of `paired_speedup`:
`n -> sample -> {variant: ns_per_op}` over the rows of the operation. -/
def buildByN (rows : List Row) (op : String) :
    List (ℤ × List (ℤ × List (String × ℚ))) :=
  rows.foldl
    (fun b r => if r.op = op then updSize b r.n r.sample r.variant r.ns_per_op else b)
    []

/-- Three-level lookup `by_n[n][s][var]` in the paired index. -/
def lookup3 (b : List (ℤ × List (ℤ × List (String × ℚ)))) (n s : ℤ)
    (var : String) : Option ℚ :=
  ((alookup b n).bind (fun m => alookup m s)).bind (fun d => alookup d var)

lemma alookup_setVar_self (d : List (String × ℚ)) (k : String) (v : ℚ) :
    alookup (setVar d k v) k = some v := by
  induction d with
  | nil => simp [setVar, alookup]
  | cons p rest ih =>
    obtain ⟨k', v'⟩ := p
    by_cases h : k' = k
    · simp [setVar, h, alookup]
    · simp [setVar, h, alookup, ih]

lemma alookup_setVar_other (d : List (String × ℚ)) (k k' : String) (v : ℚ)
    (h : k ≠ k') : alookup (setVar d k v) k' = alookup d k' := by
  induction d with
  | nil => simp [setVar, alookup, h]
  | cons p rest ih =>
    obtain ⟨k0, v0⟩ := p
    by_cases h0 : k0 = k
    · subst h0
      simp [setVar, alookup, h, ih]
    · simp only [setVar, if_neg h0, alookup]
      by_cases h1 : k0 = k'
      · simp [h1]
      · simp [h1, ih]

lemma alookup_updSample_self (m : List (ℤ × List (String × ℚ))) (s : ℤ)
    (var : String) (v : ℚ) :
    alookup (updSample m s var v) s = some (setVar ((alookup m s).getD []) var v) := by
  induction m with
  | nil => simp [updSample, alookup]
  | cons p rest ih =>
    obtain ⟨s', d⟩ := p
    by_cases h : s' = s
    · simp [updSample, h, alookup]
    · simp [updSample, h, alookup, ih]

lemma alookup_updSample_other (m : List (ℤ × List (String × ℚ))) (s s' : ℤ)
    (var : String) (v : ℚ) (h : s ≠ s') :
    alookup (updSample m s var v) s' = alookup m s' := by
  induction m with
  | nil => simp [updSample, alookup, h]
  | cons p rest ih =>
    obtain ⟨s0, d⟩ := p
    by_cases h0 : s0 = s
    · subst h0
      simp [updSample, alookup, h, ih]
    · simp only [updSample, if_neg h0, alookup]
      by_cases h1 : s0 = s'
      · simp [h1]
      · simp [h1, ih]

lemma alookup_updSize_self (b : List (ℤ × List (ℤ × List (String × ℚ))))
    (n s : ℤ) (var : String) (v : ℚ) :
    alookup (updSize b n s var v) n = some (updSample ((alookup b n).getD []) s var v) := by
  induction b with
  | nil => simp [updSize, alookup]
  | cons p rest ih =>
    obtain ⟨n', m⟩ := p
    by_cases h : n' = n
    · simp [updSize, h, alookup]
    · simp [updSize, h, alookup, ih]

lemma alookup_updSize_other (b : List (ℤ × List (ℤ × List (String × ℚ))))
    (n n' s : ℤ) (var : String) (v : ℚ) (h : n ≠ n') :
    alookup (updSize b n s var v) n' = alookup b n' := by
  induction b with
  | nil => simp [updSize, alookup, h]
  | cons p rest ih =>
    obtain ⟨n0, m⟩ := p
    by_cases h0 : n0 = n
    · subst h0
      simp [updSize, alookup, h, ih]
    · simp only [updSize, if_neg h0, alookup]
      by_cases h1 : n0 = n'
      · simp [h1]
      · simp [h1, ih]

lemma lookup3_updSize_same (b : List (ℤ × List (ℤ × List (String × ℚ))))
    (n s : ℤ) (var : String) (v : ℚ) :
    lookup3 (updSize b n s var v) n s var = some v := by
  rw [lookup3, alookup_updSize_self]
  simp [alookup_updSample_self, alookup_setVar_self]

lemma lookup3_updSize_other (b : List (ℤ × List (ℤ × List (String × ℚ))))
    (n n' s s' : ℤ) (var var' : String) (v : ℚ)
    (h : ¬(n = n' ∧ s = s' ∧ var = var')) :
    lookup3 (updSize b n s var v) n' s' var' = lookup3 b n' s' var' := by
  by_cases hn : n = n'
  · subst hn
    rw [lookup3, alookup_updSize_self, lookup3]
    by_cases hs : s = s'
    · subst hs
      have hv : var ≠ var' := by
        intro hv
        exact h ⟨rfl, rfl, hv⟩
      simp only [Option.some_bind, alookup_updSample_self,
        alookup_setVar_other _ _ _ _ hv]
      cases hb : alookup b n with
      | none => simp [alookup]
      | some m =>
        simp only [Option.getD_some, Option.some_bind]
        cases hm : alookup m s with
        | none => simp [alookup]
        | some d => simp
    · simp only [Option.some_bind, alookup_updSample_other _ _ _ _ _ hs]
      cases hb : alookup b n with
      | none => simp [alookup]
      | some m => simp
  · rw [lookup3, alookup_updSize_other _ _ _ _ _ _ hn, lookup3]

lemma getLast?_cons_or {α : Type} (a : α) (l : List α) :
    (a :: l).getLast? = l.getLast?.or (some a) := by
  cases l with
  | nil => simp
  | cons b t => rw [List.getLast?_cons_cons]; cases h : (b :: t).getLast? with
    | none => simp_all
    | some x => simp

lemma lookup3_foldl (op : String) (n s : ℤ) (var : String) (rows : List Row) :
    ∀ b, lookup3 (rows.foldl
        (fun b r => if r.op = op then updSize b r.n r.sample r.variant r.ns_per_op else b) b)
        n s var
      = (((rows.filter
            (fun r => r.op = op ∧ r.n = n ∧ r.sample = s ∧ r.variant = var)).map
          Row.ns_per_op).getLast?).or (lookup3 b n s var) := by
  induction rows with
  | nil => intro b; simp
  | cons r rest ih =>
    intro b
    rw [List.foldl_cons, List.filter_cons]
    simp only [decide_eq_true_eq]
    by_cases hP : r.op = op ∧ r.n = n ∧ r.sample = s ∧ r.variant = var
    · obtain ⟨h1, h2, h3, h4⟩ := hP
      rw [if_pos h1, if_pos ⟨h1, h2, h3, h4⟩, ih, List.map_cons,
        getLast?_cons_or, h2, h3, h4, lookup3_updSize_same, Option.or_assoc]
      rfl
    · by_cases hop : r.op = op
      · have hno : ¬(r.n = n ∧ r.sample = s ∧ r.variant = var) := by
          intro hc
          exact hP ⟨hop, hc⟩
        rw [if_pos hop, if_neg hP, ih,
          lookup3_updSize_other _ _ _ _ _ _ _ _ hno]
      · rw [if_neg hop, if_neg hP, ih]

/-- C9: the paired index keeps at most one value per variant per
(operation, size, sampleId) key: looking a variant up in the index built by
`paired_speedup` yields exactly the `ns_per_op` of the last matching input
row (last write wins; duplicate rows are absorbed, never an error). -/
theorem paired_index_last_write_wins (rows : List Row) (op : String)
    (n s : ℤ) (var : String) :
    lookup3 (buildByN rows op) n s var
      = ((rows.filter
            (fun r => r.op = op ∧ r.n = n ∧ r.sample = s ∧ r.variant = var)).map
          Row.ns_per_op).getLast? := by
  rw [buildByN, lookup3_foldl]
  show Option.or _ none = _
  rw [Option.or_none]

/-- The ratio contributed by one sample's per-variant value map, from the
inner loop of `paired_speedup`:
`if "base" in d and "opt" in d and d["opt"] != 0: ratios.append(d["base"] / d["opt"])`. -/
def sampleContrib (d : List (String × ℚ)) : Option ℚ :=
  match alookup d "base", alookup d "opt" with
  | some b, some o => if o ≠ 0 then some (b / o) else none
  | _, _ => none

/-- All ratios collected for one size: the contributing samples of
`by_n[n]` in iteration order. -/
def ratiosFor (m : List (ℤ × List (String × ℚ))) : List ℚ :=
  m.filterMap (fun sd => sampleContrib sd.2)

/-- C3: a sample contributes `base/opt` to a size's ratio distribution if
and only if both a "base" and an "opt" value exist for it and the opt value
is non-zero; in that case the contributed ratio is exactly `base/opt`, and
the ratio list of a size consists of exactly the contributions of its
samples (failing samples are silently dropped, never an error). -/
theorem paired_ratio_contribution :
    (∀ d : List (String × ℚ),
      (sampleContrib d).isSome ↔
        ∃ b o, alookup d "base" = some b ∧ alookup d "opt" = some o ∧ o ≠ 0)
    ∧ (∀ (d : List (String × ℚ)) (b o : ℚ),
      alookup d "base" = some b → alookup d "opt" = some o → o ≠ 0 →
        sampleContrib d = some (b / o))
    ∧ (∀ (m : List (ℤ × List (String × ℚ))) (r : ℚ),
      r ∈ ratiosFor m ↔ ∃ sd ∈ m, sampleContrib sd.2 = some r) := by
  refine ⟨?_, ?_, ?_⟩
  · intro d
    rcases hb : alookup d "base" with _ | b <;>
      rcases ho : alookup d "opt" with _ | o <;>
        simp [sampleContrib, hb, ho]
  · intro d b o hb ho hz
    simp [sampleContrib, hb, ho, hz]
  · intro m r
    rw [ratiosFor, List.mem_filterMap]

/-- Closed witness for `paired_ratio_contribution`: a sample with
`base = 2` and `opt = 1` contributes the ratio `2/1`. -/
theorem paired_ratio_contribution_witness :
    sampleContrib [("base", 2), ("opt", 1)] = some (2 / 1) :=
  paired_ratio_contribution.2.1 [("base", 2), ("opt", 1)] 2 1
    (by simp [alookup]) (by simp [alookup]) (by norm_num)

/-- The contributing-ratio list of one size in `paired_speedup`:
the ratios collected from `by_n[n]`. -/
def ratiosAt (rows : List Row) (op : String) (n : ℤ) : List ℚ :=
  ratiosFor ((alookup (buildByN rows op) n).getD [])

/-- `xs = sorted(by_n.keys())` in `paired_speedup`. -/
def speedupXs (rows : List Row) (op : String) : List ℤ :=
  List.insertionSort (· ≤ ·) ((buildByN rows op).map (fun p => p.1))

/-- One quantile column entry of `paired_speedup`:
`ratios.sort(); quantile(ratios, q) if ratios else None`. -/
def quantAt (rows : List Row) (op : String) (n : ℤ) (q : ℚ) : Option ℚ :=
  let ratios := List.insertionSort (· ≤ ·) (ratiosAt rows op n)
  if ratios = [] then none else quantile ratios q

/-- `paired_speedup(rows, op)` from `bench_plot.py`: the sorted sizes and the
three parallel quantile columns (median, p25, p75), each `None` at sizes with
no contributing ratios. -/
def paired_speedup (rows : List Row) (op : String) :
    List ℤ × List (Option ℚ) × List (Option ℚ) × List (Option ℚ) :=
  (speedupXs rows op,
   (speedupXs rows op).map (fun n => quantAt rows op n (1/2)),
   (speedupXs rows op).map (fun n => quantAt rows op n (1/4)),
   (speedupXs rows op).map (fun n => quantAt rows op n (3/4)))

/-- Python's `zip` over four equal-length lists (truncating at the shortest,
as `zip` does). -/
def zip4 {α β γ δ : Type} : List α → List β → List γ → List δ →
    List (α × β × γ × δ)
  | x :: xs, y :: ys, z :: zs, w :: ws => (x, y, z, w) :: zip4 xs ys zs ws
  | _, _, _, _ => []

/-- The speedup series as consumed by `print_speedup_table` and
`plot_speedup_paired`: the `paired_speedup` columns zipped positionally,
keeping only entries whose median is present (entries with `m is None` are
skipped). -/
def speedup_series (rows : List Row) (op : String) :
    List (ℤ × Option ℚ × Option ℚ × Option ℚ) :=
  (zip4 (paired_speedup rows op).1 (paired_speedup rows op).2.1
      (paired_speedup rows op).2.2.1 (paired_speedup rows op).2.2.2).filter
    (fun e => e.2.1.isSome)

lemma zip4_map_self {α β γ δ : Type} (xs : List α) (f : α → β) (g : α → γ)
    (h : α → δ) :
    zip4 xs (xs.map f) (xs.map g) (xs.map h)
      = xs.map (fun x => (x, f x, g x, h x)) := by
  induction xs with
  | nil => rfl
  | cons x t ih => simp [zip4, ih]

lemma alookup_eq_none_iff {α β : Type} [DecidableEq α] (l : List (α × β)) (a : α) :
    alookup l a = none ↔ a ∉ l.map Prod.fst := by
  induction l with
  | nil => simp [alookup]
  | cons p rest ih =>
    obtain ⟨k, v⟩ := p
    rw [List.map_cons]
    by_cases h : k = a
    · subst h
      simp [alookup]
    · rw [show alookup ((k, v) :: rest) a = alookup rest a from if_neg h, ih]
      simp only [List.mem_cons]
      constructor
      · intro hn hc
        rcases hc with hc | hc
        · exact h hc.symm
        · exact hn hc
      · intro hn hc
        exact hn (Or.inr hc)

lemma mem_keys_updSize (b : List (ℤ × List (ℤ × List (String × ℚ))))
    (n s : ℤ) (var : String) (v : ℚ) (x : ℤ) :
    x ∈ (updSize b n s var v).map Prod.fst ↔ x ∈ b.map Prod.fst ∨ x = n := by
  induction b with
  | nil => simp [updSize]
  | cons p rest ih =>
    obtain ⟨n', m⟩ := p
    by_cases h : n' = n
    · subst h
      simp [updSize]
      tauto
    · simp [updSize, h, ih]
      tauto

lemma mem_keys_buildByN (rows : List Row) (op : String) (x : ℤ) :
    x ∈ (buildByN rows op).map Prod.fst ↔ ∃ r ∈ rows, r.op = op ∧ r.n = x := by
  rw [buildByN]
  have main : ∀ b, x ∈ (rows.foldl
      (fun b r => if r.op = op then updSize b r.n r.sample r.variant r.ns_per_op else b)
        b).map Prod.fst
      ↔ x ∈ b.map Prod.fst ∨ ∃ r ∈ rows, r.op = op ∧ r.n = x := by
    induction rows with
    | nil => intro b; simp
    | cons r rest ih =>
      intro b
      rw [List.foldl_cons]
      by_cases hop : r.op = op
      · rw [if_pos hop, ih, mem_keys_updSize]
        simp only [List.mem_cons]
        constructor
        · rintro ((h | h) | h)
          · exact Or.inl h
          · exact Or.inr ⟨r, Or.inl rfl, hop, h.symm⟩
          · obtain ⟨r', hr', h1, h2⟩ := h
            exact Or.inr ⟨r', Or.inr hr', h1, h2⟩
        · rintro (h | ⟨r', hr' | hr', h1, h2⟩)
          · exact Or.inl (Or.inl h)
          · subst hr'
            exact Or.inl (Or.inr h2.symm)
          · exact Or.inr ⟨r', hr', h1, h2⟩
      · rw [if_neg hop, ih]
        simp only [List.mem_cons]
        constructor
        · rintro (h | ⟨r', hr', h1, h2⟩)
          · exact Or.inl h
          · exact Or.inr ⟨r', Or.inr hr', h1, h2⟩
        · rintro (h | ⟨r', hr' | hr', h1, h2⟩)
          · exact Or.inl h
          · subst hr'
            exact absurd h1 hop
          · exact Or.inr ⟨r', hr', h1, h2⟩
  rw [main []]
  simp

lemma quantile_isSome_of_ne_nil (rs : List ℚ) (q : ℚ) (h : rs ≠ []) :
    (quantile rs q).isSome := by
  rw [quantile, if_neg h]
  by_cases h1 : rs.length = 1
  · rw [if_pos h1]; rfl
  · rw [if_neg h1]; rfl

lemma insertionSort_eq_nil_iff (l : List ℚ) :
    List.insertionSort (· ≤ ·) l = [] ↔ l = [] := by
  constructor
  · intro h
    have hlen := List.length_insertionSort (fun a b : ℚ => a ≤ b) l
    rw [h] at hlen
    exact List.length_eq_zero.mp hlen.symm
  · rintro rfl
    rfl

lemma mem_map_fst_filter_isSome (xs : List ℤ) (f g h : ℤ → Option ℚ) (n : ℤ) :
    n ∈ ((xs.map (fun x => (x, f x, g x, h x))).filter
        (fun e => e.2.1.isSome)).map (fun e => e.1)
      ↔ n ∈ xs ∧ (f n).isSome := by
  induction xs with
  | nil => simp
  | cons x t ih =>
    rw [List.map_cons, List.filter_cons]
    by_cases hx : (f x).isSome
    · rw [if_pos (by simpa using hx), List.map_cons]
      simp only [List.mem_cons, ih]
      constructor
      · rintro (rfl | ⟨ht, hf⟩)
        · exact ⟨Or.inl rfl, hx⟩
        · exact ⟨Or.inr ht, hf⟩
      · rintro ⟨rfl | ht, hf⟩
        · exact Or.inl rfl
        · exact Or.inr ⟨ht, hf⟩
    · rw [if_neg (by simpa using hx), ih]
      simp only [List.mem_cons]
      constructor
      · rintro ⟨ht, hf⟩
        exact ⟨Or.inr ht, hf⟩
      · rintro ⟨rfl | ht, hf⟩
        · exact absurd hf hx
        · exact ⟨ht, hf⟩

/-- C2: the speedup series (as printed/plotted) contains an entry for a size
if and only if that size has at least one contributing ratio: sizes whose
contributing-ratio set is empty are excluded from the series entirely, not
emitted with absent quantile values. -/
theorem speedup_series_excludes_empty (rows : List Row) (op : String) (n : ℤ) :
    n ∈ (speedup_series rows op).map (fun e => e.1)
      ↔ ratiosAt rows op n ≠ [] := by
  have hzip : zip4 (paired_speedup rows op).1 (paired_speedup rows op).2.1
      (paired_speedup rows op).2.2.1 (paired_speedup rows op).2.2.2
      = (speedupXs rows op).map (fun x => (x, quantAt rows op x (1/2),
          quantAt rows op x (1/4), quantAt rows op x (3/4))) :=
    zip4_map_self _ _ _ _
  rw [speedup_series, hzip, mem_map_fst_filter_isSome]
  constructor
  · rintro ⟨_hmem, hsome⟩
    simp only [quantAt] at hsome
    by_cases hs : List.insertionSort (· ≤ ·) (ratiosAt rows op n) = []
    · rw [if_pos hs] at hsome
      simp at hsome
    · intro hnil
      rw [hnil] at hs
      exact hs rfl
  · intro hne
    have hkey : n ∈ (buildByN rows op).map Prod.fst := by
      by_contra hk
      have hnone := (alookup_eq_none_iff _ _).mpr hk
      rw [ratiosAt, hnone] at hne
      simp [ratiosFor] at hne
    have hs : List.insertionSort (· ≤ ·) (ratiosAt rows op n) ≠ [] := by
      intro h
      exact hne ((insertionSort_eq_nil_iff _).mp h)
    constructor
    · rw [speedupXs]
      exact (List.mem_insertionSort (fun a b : ℤ => a ≤ b)).mpr hkey
    · simp only [quantAt]
      rw [if_neg hs]
      exact quantile_isSome_of_ne_nil _ _ hs

/-- `d[k] = v` on an insertion-ordered dict (generic): overwrite in place if
the key exists, append otherwise. -/
def dictSet {α β : Type} [DecidableEq α] (d : List (α × β)) (k : α) (v : β) :
    List (α × β) :=
  match d with
  | [] => [(k, v)]
  | (k', v') :: rest =>
      if k' = k then (k', v) :: rest else (k', v') :: dictSet rest k v

/-- The three partial series built by `plot_mem_insert_peak` from the rows of
op `"mem_insert_peak"`: a "base" row sets `base[n] = peak` and
`exp[n] = expected`; an "opt" row sets `opt[n] = peak`. -/
def memDicts (rows : List Row) : List (ℤ × ℤ) × List (ℤ × ℤ) × List (ℤ × ℤ) :=
  rows.foldl
    (fun acc r =>
      if r.op = "mem_insert_peak" then
        if r.variant = "base" then
          (dictSet acc.1 r.n (pyInt r.mem_peak_bytes), acc.2.1,
            dictSet acc.2.2 r.n (pyInt r.expected_node_bytes))
        else if r.variant = "opt" then
          (acc.1, dictSet acc.2.1 r.n (pyInt r.mem_peak_bytes), acc.2.2)
        else acc
      else acc)
    ([], [], [])

/-- `xs = sorted(set(base) | set(opt) | set(exp))` in `plot_mem_insert_peak`. -/
def memXs (rows : List Row) : List ℤ :=
  List.insertionSort (· ≤ ·)
    ((((memDicts rows).1.map Prod.fst) ++ ((memDicts rows).2.1.map Prod.fst)
      ++ ((memDicts rows).2.2.map Prod.fst)).dedup)

/-- The aligned merged series of `plot_mem_insert_peak`: for each merged size
the three optional values `base.get(x), opt.get(x), exp.get(x)` (a `none` is
an explicit no-data gap). -/
def memSeries (rows : List Row) : List (ℤ × Option ℤ × Option ℤ × Option ℤ) :=
  (memXs rows).map (fun x =>
    (x, alookup (memDicts rows).1 x, alookup (memDicts rows).2.1 x,
      alookup (memDicts rows).2.2 x))

/-- Number of populated (non-gap) fields of one merged-series entry. -/
def popCount (e : ℤ × Option ℤ × Option ℤ × Option ℤ) : ℕ :=
  (if e.2.1.isSome then 1 else 0) + (if e.2.2.1.isSome then 1 else 0)
    + (if e.2.2.2.isSome then 1 else 0)

/-- A base-variant `mem_insert_peak` row at size 100. -/
def memRowBase : Row :=
  { op := "mem_insert_peak", variant := "base", n := 100, sample := 0,
    ns_per_op := 0, mem_peak_bytes := 5000, expected_node_bytes := 4000 }

/-- An opt-variant `mem_insert_peak` row at size 200. -/
def memRowOpt : Row :=
  { op := "mem_insert_peak", variant := "opt", n := 200, sample := 0,
    ns_per_op := 0, mem_peak_bytes := 6000, expected_node_bytes := 0 }

lemma memDicts_example :
    memDicts [memRowBase, memRowOpt]
      = ([(100, 5000)], [(200, 6000)], [(100, 4000)]) := by
  norm_num [memDicts, dictSet, pyInt, memRowBase, memRowOpt]
  decide

lemma memSeries_example :
    memSeries [memRowBase, memRowOpt]
      = [(100, some 5000, none, some 4000), (200, none, some 6000, none)] := by
  rw [memSeries, memXs, memDicts_example]
  norm_num [alookup]

/-- C4 counterexample: with base-only data at size 100 and opt-only data at
size 200, the merged series does contain entries for both sizes, but the
size-100 entry has two populated fields (base peak and expected bytes), not
exactly one: a base row populates the expected-bytes series as well, so the
claimed "each with exactly one populated field and two explicit no-data
gaps" is false on this input. -/
theorem mem_merge_example_counterexample :
    memSeries [memRowBase, memRowOpt]
        = [(100, some 5000, none, some 4000), (200, none, some 6000, none)]
      ∧ ¬(∀ e ∈ memSeries [memRowBase, memRowOpt], popCount e = 1) := by
  refine ⟨memSeries_example, ?_⟩
  intro h
  have h100 := h (100, some 5000, none, some 4000)
    (by rw [memSeries_example]; simp)
  simp [popCount] at h100

/-- C4 (amended): the merged size axis of the memory-peak merge is the
ascending union of the key sets of the base-peak, opt-peak and
expected-bytes partial series, and an entry carries a `none` gap in a field
exactly when that series lacks the entry's size.  In the
base-only-at-100 / opt-only-at-200 example both sizes appear in the merged
series; the 200 entry has exactly one populated field and two gaps, while
the 100 entry has two populated fields (base peak and expected bytes) and
one gap, because a base row also supplies the expected-bytes series. -/
theorem mem_merge_union_with_gaps :
    (∀ rows : List Row,
      List.Sorted (· ≤ ·) (memXs rows)
      ∧ (∀ x : ℤ, x ∈ memXs rows ↔ x ∈ (memDicts rows).1.map Prod.fst
          ∨ x ∈ (memDicts rows).2.1.map Prod.fst
          ∨ x ∈ (memDicts rows).2.2.map Prod.fst)
      ∧ (∀ e ∈ memSeries rows,
          (e.2.1 = none ↔ e.1 ∉ (memDicts rows).1.map Prod.fst)
          ∧ (e.2.2.1 = none ↔ e.1 ∉ (memDicts rows).2.1.map Prod.fst)
          ∧ (e.2.2.2 = none ↔ e.1 ∉ (memDicts rows).2.2.map Prod.fst)))
    ∧ memSeries [memRowBase, memRowOpt]
        = [(100, some 5000, none, some 4000), (200, none, some 6000, none)]
    ∧ popCount (100, some 5000, none, some 4000) = 2
    ∧ popCount (200, none, some 6000, none) = 1 := by
  refine ⟨?_, memSeries_example, by simp [popCount], by simp [popCount]⟩
  intro rows
  refine ⟨List.sorted_insertionSort _ _, ?_, ?_⟩
  · intro x
    rw [memXs, List.mem_insertionSort, List.mem_dedup, List.mem_append,
      List.mem_append]
    tauto
  · intro e he
    obtain ⟨x, _hx, rfl⟩ := List.mem_map.mp he
    exact ⟨alookup_eq_none_iff _ _, alookup_eq_none_iff _ _,
      alookup_eq_none_iff _ _⟩

/-- Closed witness for `mem_merge_union_with_gaps` on the concrete
two-row example: size 100 is in the merged axis, and the opt field of its
entry is a gap exactly because the opt series lacks size 100. -/
theorem mem_merge_union_with_gaps_witness :
    (100 : ℤ) ∈ memXs [memRowBase, memRowOpt]
    ∧ (((100 : ℤ), some (5000 : ℤ), (none : Option ℤ), some (4000 : ℤ)).2.2.1 = none ↔
        (100 : ℤ) ∉ ((memDicts [memRowBase, memRowOpt]).2.1.map Prod.fst)) :=
  ⟨((mem_merge_union_with_gaps.1 [memRowBase, memRowOpt]).2.1 100).mpr
      (Or.inl (by rw [memDicts_example]; simp)),
   (((mem_merge_union_with_gaps.1 [memRowBase, memRowOpt]).2.2
      (100, some 5000, none, some 4000)
      (by rw [memSeries_example]; simp)).2.1)⟩
